import Mathlib

set_option autoImplicit false

/-!
# Verification of the Values Carousel ring animator

A shallow embedding of the `ValuesCarousel` module of `js/main.js` (a
portfolio website).  The module animates six DOM cards around a fixed
hexagonal ring while the pointer hovers the grid: a continuous `progress`
scalar advances with the frame timestamps, and each frame every card is
placed at the linear interpolation of the base positions of the two ring
slots its fractional ring position lies between.

Modelling conventions:
* JavaScript numbers are rationals (`ℚ`); `Math.floor` is `Int.floor`,
  the JS `%` operator (truncated remainder) is `jsMod` / `jsRemInt`.
* A card's `style.transform` is `Option Pos`: `none` is the empty string
  (no transform), `some p` is `translate(p.x px, p.y px)`.
* `requestAnimationFrame` / `cancelAnimationFrame` are modelled by a list
  of pending callback handles plus a fresh-handle counter; the only
  callback the module ever schedules is `animate`.
* DOM measurement (`getBoundingClientRect`) is an environment input: a
  function from card index to measured position, supplied with an event.
* The debounce timer of `handleResize` is abstracted: the event
  `Event.resized` is the debounced body firing after the quiet period.
-/

/-- A 2D point `{x, y}` as produced by `getBoundingClientRect`
measurements and used for card offsets. -/
structure Pos where
  x : ℚ
  y : ℚ
deriving DecidableEq

instance : Inhabited Pos := ⟨⟨0, 0⟩⟩

/-- The `CONFIG` object of the module. -/
structure CarouselConfig where
  speed : ℚ
  minWidth : ℚ
  ringOrder : List ℕ

/-- `CONFIG` from the source: speed 0.45 positions per second, 768px
minimum viewport width, ring order `[0, 1, 3, 5, 4, 2]` (clockwise
through the hexagonal layout). -/
def CONFIG : CarouselConfig :=
  { speed := 9/20, minWidth := 768, ringOrder := [0, 1, 3, 5, 4, 2] }

/-- JavaScript truncation toward zero (the rounding used by the JS `%`
operator). -/
def jsTrunc (q : ℚ) : ℤ := if 0 ≤ q then ⌊q⌋ else -⌊-q⌋

/-- The JavaScript `%` operator on numbers: truncated remainder,
`a % n = a - n * trunc(a / n)`. -/
def jsMod (a n : ℚ) : ℚ := a - n * (jsTrunc (a / n) : ℚ)

/-- The JavaScript `%` operator restricted to integer-valued operands
with positive divisor: remainder with the sign of the dividend. -/
def jsRemInt (a n : ℤ) : ℤ := if 0 ≤ a then a % n else -((-a) % n)

/-- `lerp` from the source: `a + (b - a) * t`. -/
def lerp (a b t : ℚ) : ℚ := a + (b - a) * t

/-- JS array indexing by a (possibly negative) integer-valued index:
out-of-range access yields `undefined` (`none`). -/
def zidx {α : Type} (l : List α) (i : ℤ) : Option α :=
  if 0 ≤ i then l[i.toNat]? else none

/-- Result of the `cards.forEach` body in `applyPositions` for one card:
`skip` is the `ringPos === -1` early return, `fault` marks an access
that is `undefined` in JS (reading `.x` of it would throw a TypeError),
`offset p` is the offset written to the card's transform. -/
inductive CardUpdate
  | skip
  | fault
  | offset (p : Pos)
deriving DecidableEq

/-- The body of the `cards.forEach` in `applyPositions`, for the card at
`cardIndex`: find the card's ring position, split the effective
fractional position into the two bracketing ring slots and the
interpolation weight, and produce the interpolated offset relative to
the card's own base position. -/
def applyCardOffset (ring : List ℕ) (base : List Pos) (progress : ℚ)
    (cardIndex : ℕ) : CardUpdate :=
  match ring.findIdx? (· == cardIndex) with
  | none => .skip
  | some ringPos =>
    let len : ℚ := (ring.length : ℚ)
    let effective : ℚ := jsMod ((ringPos : ℚ) + progress) len
    let posA : ℤ := jsRemInt ⌊effective⌋ (ring.length : ℤ)
    let posB : ℤ := jsRemInt (posA + 1) (ring.length : ℤ)
    let t : ℚ := effective - (⌊effective⌋ : ℚ)
    match zidx ring posA, zidx ring posB with
    | some slotA, some slotB =>
      match base[slotA]?, base[slotB]?, base[cardIndex]? with
      | some pA, some pB, some pC =>
        .offset ⟨lerp pA.x pB.x t - pC.x, lerp pA.y pB.y t - pC.y⟩
      | _, _, _ => .fault
    | _, _ => .fault

/-- The whole module state: the module-level mutable variables, plus the
explicit model of the animation-frame queue (`pending`, `nextHandle`)
and of the pointer position (`inside`, browser-maintained, read by no
handler but constraining which hover events the DOM can deliver). -/
structure CState where
  basePositions : List Pos
  progress : ℚ
  animationId : Option ℕ
  lastTimestamp : Option ℚ
  positionsCaptured : Bool
  transforms : List (Option Pos)
  pending : List ℕ
  nextHandle : ℕ
  inside : Bool
deriving DecidableEq

/-- `requestAnimationFrame(animate)`: append a fresh handle to the
pending queue and return it. -/
def raf (s : CState) : ℕ × CState :=
  (s.nextHandle,
   { s with pending := s.pending ++ [s.nextHandle], nextHandle := s.nextHandle + 1 })

/-- `cancelAnimationFrame(id)`: drop the handle from the pending queue
(a no-op if it already fired). -/
def caf (id : ℕ) (s : CState) : CState :=
  { s with pending := s.pending.filter (· ≠ id) }

/-- `captureBasePositions()`: save every card's transform, clear all
transforms to measure natural positions (the measurement itself is the
environment input `measured`, one position per card, six cards), restore
the saved transforms, and set `positionsCaptured`. -/
def captureBasePositions (measured : ℕ → Pos) (s : CState) : CState :=
  let savedTransforms := s.transforms
  let s1 := { s with transforms := s.transforms.map (fun _ => none) }
  let s2 := { s1 with basePositions := (List.range 6).map measured }
  let s3 := { s2 with transforms := savedTransforms }
  { s3 with positionsCaptured := true }

/-- One step of the `cards.forEach` loop of `applyPositions` over the
remaining card indices.  A `fault` is a thrown TypeError in JS: the
remaining cards keep their transforms (the loop aborts); theorem
`applyCardOffset_eq` below shows the fault branch is unreachable in
the configurations the module actually runs in. -/
def applyPositionsFrom : List ℕ → CState → CState
  | [], s => s
  | i :: rest, s =>
    match applyCardOffset CONFIG.ringOrder s.basePositions s.progress i with
    | .skip => applyPositionsFrom rest s
    | .fault => s
    | .offset p =>
      applyPositionsFrom rest { s with transforms := s.transforms.set i (some p) }

/-- `applyPositions()`: update every card's transform from the current
`progress` and `basePositions` (six cards). -/
def applyPositions (s : CState) : CState :=
  applyPositionsFrom (List.range 6) s

/-- `animate(timestamp)`: zero delta on the first frame of a run,
advance `progress` by `speed` times elapsed seconds, apply positions,
re-schedule itself. -/
def animate (timestamp : ℚ) (s : CState) : CState :=
  let last : ℚ := match s.lastTimestamp with | none => timestamp | some l => l
  let s1 := { s with lastTimestamp := some timestamp }
  let delta := (timestamp - last) / 1000
  let s2 := { s1 with progress := s1.progress + CONFIG.speed * delta }
  let s3 := applyPositions s2
  let hs := raf s3
  { hs.2 with animationId := some hs.1 }

/-- `handleMouseEnter()`: guarded by viewport width and reduced motion;
captures base positions on first qualifying hover; resets the timestamp
and schedules the frame loop. -/
def handleMouseEnter (width : ℚ) (reduced : Bool) (measured : ℕ → Pos)
    (s : CState) : CState :=
  if width < CONFIG.minWidth then s
  else if reduced then s
  else
    let s1 := if !s.positionsCaptured then captureBasePositions measured s else s
    let s2 := { s1 with lastTimestamp := none }
    let hs := raf s2
    { hs.2 with animationId := some hs.1 }

/-- `handleMouseLeave()`: cancel the pending frame, if any; transforms
are left as they are (freeze in place). -/
def handleMouseLeave (s : CState) : CState :=
  match s.animationId with
  | some id => { caf id s with animationId := none }
  | none => s

/-- The debounced body of `handleResize()` (the `setTimeout` callback
after the 150ms quiet period): no-op if positions were never captured;
otherwise stop a running loop, and either reset everything (narrow
viewport) or re-capture, re-apply and restart. -/
def handleResizeWork (width : ℚ) (measured : ℕ → Pos) (s : CState) : CState :=
  if !s.positionsCaptured then s
  else
    let wasAnimating := s.animationId.isSome
    let s1 := match s.animationId with
              | some id => { caf id s with animationId := none }
              | none => s
    if width < CONFIG.minWidth then
      { s1 with transforms := s1.transforms.map (fun _ => none),
                positionsCaptured := false,
                progress := 0 }
    else
      let s2 := captureBasePositions measured s1
      let s3 := applyPositions s2
      if wasAnimating then
        let s4 := { s3 with lastTimestamp := none }
        let hs := raf s4
        { hs.2 with animationId := some hs.1 }
      else s3

/-- The events the module reacts to.  `enter`/`leave` carry the
environment read by the handler (viewport width, reduced-motion flag,
DOM measurement); `resized` is the debounced resize body firing;
`frame t` is the browser invoking the earliest pending
animation-frame callback with timestamp `t`. -/
inductive Event
  | enter (width : ℚ) (reduced : Bool) (measured : ℕ → Pos)
  | leave
  | resized (width : ℚ) (measured : ℕ → Pos)
  | frame (timestamp : ℚ)

/-- Dispatch one event.  Pointer tracking: entering/leaving the grid
flips `inside` before the handler runs.  A `frame` event with an empty
queue fires nothing. -/
def step (e : Event) (s : CState) : CState :=
  match e with
  | .enter w r m => handleMouseEnter w r m { s with inside := true }
  | .leave => handleMouseLeave { s with inside := false }
  | .resized w m => handleResizeWork w m s
  | .frame ts =>
    match s.pending with
    | [] => s
    | h :: rest => animate ts { s with pending := rest }

/-- Run a sequence of events. -/
def run (es : List Event) (s : CState) : CState :=
  es.foldl (fun s e => step e s) s

/-- The module state right after script load: nothing captured, no
transforms applied (six cards), no frame pending. -/
def initState : CState :=
  { basePositions := []
    progress := 0
    animationId := none
    lastTimestamp := none
    positionsCaptured := false
    transforms := List.replicate 6 none
    pending := []
    nextHandle := 0
    inside := false }

/-- The environment `init()` reads: whether `.values-grid` exists, how
many `.value-card` elements it contains, and the reduced-motion media
query. -/
structure InitEnv where
  gridPresent : Bool
  cardCount : ℕ
  reducedMotion : Bool

/-- `init()`: returns whether the three event listeners were registered,
together with the (unchanged) module state.  Each guard returns early
without touching any animation state and without throwing. -/
def init (env : InitEnv) (s : CState) : Bool × CState :=
  if !env.gridPresent then (false, s)
  else if env.cardCount ≠ 6 then (false, s)
  else if env.reducedMotion then (false, s)
  else (true, s)

/-- A whole-page step: if `init` registered no listeners, DOM events
never reach the handlers and the state is untouched. -/
def systemStep (listeners : Bool) (e : Event) (s : CState) : CState :=
  if listeners then step e s else s

/-- Run a sequence of events at the page level. -/
def systemRun (listeners : Bool) (es : List Event) (s : CState) : CState :=
  es.foldl (fun s e => systemStep listeners e s) s

/-- The ring position `Array.prototype.indexOf` returns for each of the
six cards (the inverse of the `ringOrder` permutation). -/
def ringSlotIndex (i : ℕ) : ℕ := [0, 1, 5, 2, 4, 3].getD i 0

/-- The interpolation segment the spec describes: on the (cyclic) ring
interval from slot `m` to slot `m + 1`, the rendered offset of card
`cardIndex` at interpolation weight `t` is the lerp of the base
positions of those two cyclically adjacent ring slots minus the card's
own base position. -/
def segOffset (base : List Pos) (cardIndex m : ℕ) (t : ℚ) : Pos :=
  let sA := CONFIG.ringOrder.getD (m % 6) 0
  let sB := CONFIG.ringOrder.getD ((m + 1) % 6) 0
  let pA := base.getD sA default
  let pB := base.getD sB default
  let pC := base.getD cardIndex default
  ⟨lerp pA.x pB.x t - pC.x, lerp pA.y pB.y t - pC.y⟩

/-- The offset the update computes for card `i`: segment `⌊effective⌋`,
weight `fract effective`, where `effective = (ringPos + progress) % 6`. -/
def cardOffsetAt (base : List Pos) (p : ℚ) (i : ℕ) : Pos :=
  segOffset base i ⌊jsMod ((ringSlotIndex i : ℚ) + p) 6⌋.toNat
    (Int.fract (jsMod ((ringSlotIndex i : ℚ) + p) 6))

/-- A concrete set of six base positions, used to instantiate the
hypothesis-bearing theorems. -/
def sampleBase : List Pos := [⟨0, 0⟩, ⟨1, 0⟩, ⟨2, 0⟩, ⟨0, 1⟩, ⟨1, 1⟩, ⟨2, 1⟩]

/-- A concrete DOM measurement, used to instantiate theorems. -/
def sampleMeasured : ℕ → Pos := fun _ => ⟨0, 0⟩

/-- A concrete captured state for instantiating hypothesis-bearing
state theorems. -/
def sampleState : CState :=
  { basePositions := sampleBase
    progress := 0
    animationId := none
    lastTimestamp := none
    positionsCaptured := true
    transforms := List.replicate 6 none
    pending := []
    nextHandle := 0
    inside := false }

/-- A concrete captured-and-animating state (one pending frame). -/
def sampleAnimState : CState :=
  { sampleState with animationId := some 0, pending := [0], inside := true }

/-- Scheduling invariant: the pending frame queue matches `animationId`
(empty when it is `null`, exactly that one handle otherwise), and a
frame can only be pending while the pointer is inside the grid. -/
def SchedInv (s : CState) : Prop :=
  (s.animationId = none → s.pending = []) ∧
  (∀ h, s.animationId = some h → s.pending = [h] ∧ s.inside = true)

/-- Events the DOM can actually deliver in a given state: `mouseenter`
fires only when the pointer is currently outside the grid (a second
`mouseenter` requires an intervening `mouseleave`). -/
def okEvent (s : CState) : Event → Bool
  | .enter _ _ _ => !s.inside
  | _ => true

/-- A DOM-deliverable event trace from a state. -/
def validRun (s : CState) : List Event → Bool
  | [] => true
  | e :: es => okEvent s e && validRun (step e s) es

/-- Events that cannot un-freeze the animation: frame timestamps,
hover-leaves, and hover-enters that fail the width or reduced-motion
guard.  (A debounced resize or a qualifying hover-enter may change
state.) -/
def frozenEvent : Event → Prop
  | .enter w r _ => w < CONFIG.minWidth ∨ r = true
  | .leave => True
  | .frame _ => True
  | .resized _ _ => False

/-!
## Theorems
-/
theorem jsTrunc_of_nonneg (q : ℚ) (h : 0 ≤ q) : jsTrunc q = ⌊q⌋ := if_pos h

theorem jsRemInt_of_nonneg (a n : ℤ) (h : 0 ≤ a) : jsRemInt a n = a % n := if_pos h

theorem jsMod_of_nonneg (a n : ℚ) (ha : 0 ≤ a) (hn : 0 < n) :
    jsMod a n = n * Int.fract (a / n) := by
  have hn0 : n ≠ 0 := ne_of_gt hn
  rw [jsMod, jsTrunc_of_nonneg _ (div_nonneg ha hn.le), Int.fract]
  field_simp

theorem jsMod_nonneg (a n : ℚ) (ha : 0 ≤ a) (hn : 0 < n) : 0 ≤ jsMod a n := by
  rw [jsMod_of_nonneg a n ha hn]
  exact mul_nonneg hn.le (Int.fract_nonneg _)

theorem jsMod_lt (a n : ℚ) (ha : 0 ≤ a) (hn : 0 < n) : jsMod a n < n := by
  rw [jsMod_of_nonneg a n ha hn]
  calc n * Int.fract (a / n) < n * 1 :=
        (mul_lt_mul_left hn).mpr (Int.fract_lt_one _)
    _ = n := mul_one n

theorem floor_jsMod_nonneg (a n : ℚ) (ha : 0 ≤ a) (hn : 0 < n) :
    0 ≤ ⌊jsMod a n⌋ :=
  Int.floor_nonneg.mpr (jsMod_nonneg a n ha hn)

theorem floor_jsMod_lt_six (a : ℚ) (ha : 0 ≤ a) : ⌊jsMod a 6⌋ < 6 := by
  have h : jsMod a 6 < ((6 : ℤ) : ℚ) := by
    exact_mod_cast jsMod_lt a 6 ha (by norm_num)
  exact Int.floor_lt.mpr h

theorem ringOrder_findIdx : ∀ i < 6,
    CONFIG.ringOrder.findIdx? (· == i) = some (ringSlotIndex i) := by decide

theorem ringSlotIndex_lt : ∀ i < 6, ringSlotIndex i < 6 := by decide

theorem ringOrder_getElem : ∀ n < 6,
    CONFIG.ringOrder[n]? = some (CONFIG.ringOrder.getD n 0) := by decide

theorem ringOrder_getD_lt : ∀ n < 6, CONFIG.ringOrder.getD n 0 < 6 := by decide

/-- Characterization of the `forEach` body on the real configuration:
with six captured base positions and nonnegative progress, the card at
index `i` (ring position `r`) gets exactly the segment offset at segment
`⌊effective⌋` and weight `fract effective`. -/
theorem applyCardOffset_eq_segOffset (base : List Pos) (p : ℚ) (i r : ℕ)
    (h6 : base.length = 6) (hi : i < 6) (hp : 0 ≤ p)
    (hr : CONFIG.ringOrder.findIdx? (· == i) = some r) :
    applyCardOffset CONFIG.ringOrder base p i =
      .offset (segOffset base i ⌊jsMod ((r : ℚ) + p) 6⌋.toNat
        (Int.fract (jsMod ((r : ℚ) + p) 6))) := by
  have ha : (0:ℚ) ≤ (r : ℚ) + p := by positivity
  have hL : CONFIG.ringOrder.length = 6 := rfl
  have he0 : 0 ≤ jsMod ((r : ℚ) + p) 6 := jsMod_nonneg _ _ ha (by norm_num)
  have hfl0 : 0 ≤ ⌊jsMod ((r : ℚ) + p) 6⌋ := Int.floor_nonneg.mpr he0
  have hfl6 : ⌊jsMod ((r : ℚ) + p) 6⌋ < 6 := floor_jsMod_lt_six _ ha
  have hA : jsRemInt ⌊jsMod ((r : ℚ) + p) 6⌋ 6 = ⌊jsMod ((r : ℚ) + p) 6⌋ := by
    rw [jsRemInt_of_nonneg _ _ hfl0]
    exact Int.emod_eq_of_lt hfl0 hfl6
  have hB : jsRemInt (⌊jsMod ((r : ℚ) + p) 6⌋ + 1) 6 =
      (⌊jsMod ((r : ℚ) + p) 6⌋ + 1) % 6 := jsRemInt_of_nonneg _ _ (by omega)
  have hB0 : 0 ≤ (⌊jsMod ((r : ℚ) + p) 6⌋ + 1) % 6 := Int.emod_nonneg _ (by norm_num)
  have hB6 : (⌊jsMod ((r : ℚ) + p) 6⌋ + 1) % 6 < 6 := Int.emod_lt_of_pos _ (by norm_num)
  have hzA : zidx CONFIG.ringOrder ⌊jsMod ((r : ℚ) + p) 6⌋ =
      some (CONFIG.ringOrder.getD ⌊jsMod ((r : ℚ) + p) 6⌋.toNat 0) := by
    rw [zidx, if_pos hfl0]
    exact ringOrder_getElem _ (by omega)
  have hzB : zidx CONFIG.ringOrder ((⌊jsMod ((r : ℚ) + p) 6⌋ + 1) % 6) =
      some (CONFIG.ringOrder.getD ((⌊jsMod ((r : ℚ) + p) 6⌋ + 1) % 6).toNat 0) := by
    rw [zidx, if_pos hB0]
    exact ringOrder_getElem _ (by omega)
  have hbase : ∀ n, n < 6 → base[n]? = some (base.getD n default) := by
    intro n hn
    have hn' : n < base.length := by omega
    rw [List.getElem?_eq_getElem hn', List.getD_eq_getElem base default hn']
  simp only [applyCardOffset, hr, hL]
  norm_num
  rw [hA, hB, hzA, hzB]
  have hbA : base[CONFIG.ringOrder.getD ⌊jsMod ((r : ℚ) + p) 6⌋.toNat 0]? =
      some (base.getD (CONFIG.ringOrder.getD ⌊jsMod ((r : ℚ) + p) 6⌋.toNat 0) default) :=
    hbase _ (ringOrder_getD_lt _ (by omega))
  have hbB : base[CONFIG.ringOrder.getD ((⌊jsMod ((r : ℚ) + p) 6⌋ + 1) % 6).toNat 0]? =
      some (base.getD (CONFIG.ringOrder.getD ((⌊jsMod ((r : ℚ) + p) 6⌋ + 1) % 6).toNat 0) default) :=
    hbase _ (ringOrder_getD_lt _ (by omega))
  have hbC : base[i]? = some (base.getD i default) := hbase _ hi
  simp only [hbA, hbB, hbC]
  simp only [segOffset, Int.fract]
  have hm1 : ⌊jsMod ((r : ℚ) + p) 6⌋.toNat % 6 = ⌊jsMod ((r : ℚ) + p) 6⌋.toNat := by
    omega
  have hm2 : ((⌊jsMod ((r : ℚ) + p) 6⌋ + 1) % 6).toNat =
      (⌊jsMod ((r : ℚ) + p) 6⌋.toNat + 1) % 6 := by omega
  rw [hm1, hm2]

theorem applyCardOffset_eq (base : List Pos) (p : ℚ) (i : ℕ)
    (h6 : base.length = 6) (hi : i < 6) (hp : 0 ≤ p) :
    applyCardOffset CONFIG.ringOrder base p i = .offset (cardOffsetAt base p i) :=
  applyCardOffset_eq_segOffset base p i (ringSlotIndex i) h6 hi hp
    (ringOrder_findIdx i hi)

/-- `applyPositions` touches only the transforms. -/
theorem applyPositionsFrom_fields (l : List ℕ) (s : CState) :
    (applyPositionsFrom l s).basePositions = s.basePositions ∧
    (applyPositionsFrom l s).progress = s.progress ∧
    (applyPositionsFrom l s).animationId = s.animationId ∧
    (applyPositionsFrom l s).lastTimestamp = s.lastTimestamp ∧
    (applyPositionsFrom l s).positionsCaptured = s.positionsCaptured ∧
    (applyPositionsFrom l s).pending = s.pending ∧
    (applyPositionsFrom l s).nextHandle = s.nextHandle ∧
    (applyPositionsFrom l s).inside = s.inside := by
  induction l generalizing s with
  | nil => exact ⟨rfl, rfl, rfl, rfl, rfl, rfl, rfl, rfl⟩
  | cons i rest ih =>
    rcases hu : applyCardOffset CONFIG.ringOrder s.basePositions s.progress i
      with _ | _ | p <;> simp only [applyPositionsFrom, hu]
    · exact ih s
    · simp
    · exact ih _

theorem applyPositionsFrom_transforms_length (l : List ℕ) (s : CState) :
    (applyPositionsFrom l s).transforms.length = s.transforms.length := by
  induction l generalizing s with
  | nil => rfl
  | cons i rest ih =>
    rcases hu : applyCardOffset CONFIG.ringOrder s.basePositions s.progress i
      with _ | _ | p <;> simp only [applyPositionsFrom, hu]
    · exact ih s
    · rw [ih]
      exact List.length_set ..

/-- If no card of `l` faults and card `j` computes to `offset q`, the
loop leaves `some q` in card `j`'s transform. -/
theorem applyPositionsFrom_get_written (l : List ℕ) (s : CState) (j : ℕ) (q : Pos)
    (hall : ∀ i ∈ l, applyCardOffset CONFIG.ringOrder s.basePositions s.progress i ≠ .fault)
    (hj : applyCardOffset CONFIG.ringOrder s.basePositions s.progress j = .offset q)
    (hjlen : j < s.transforms.length)
    (hmem : j ∈ l ∨ s.transforms[j]? = some (some q)) :
    (applyPositionsFrom l s).transforms[j]? = some (some q) := by
  induction l generalizing s with
  | nil =>
    rcases hmem with h | h
    · exact absurd h (List.not_mem_nil j)
    · exact h
  | cons i rest ih =>
    rcases hu : applyCardOffset CONFIG.ringOrder s.basePositions s.progress i
      with _ | _ | p <;> simp only [applyPositionsFrom, hu]
    · refine ih s (fun k hk => hall k (List.mem_cons_of_mem i hk)) hj hjlen ?_
      rcases hmem with h | h
      · rcases List.mem_cons.mp h with rfl | h
        · rw [hj] at hu
          exact absurd hu (by simp)
        · exact Or.inl h
      · exact Or.inr h
    · exact absurd hu (hall i (List.mem_cons_self i rest))
    · refine ih _ (fun k hk => hall k (List.mem_cons_of_mem i hk)) hj ?_ ?_
      · rw [List.length_set]
        exact hjlen
      · by_cases hij : j = i
        · subst hij
          rw [hj] at hu
          obtain rfl : q = p := by
            cases hu
            rfl
          exact Or.inr (List.getElem?_set_eq_of_lt (some q) hjlen)
        · rcases hmem with h | h
          · rcases List.mem_cons.mp h with rfl | h
            · exact absurd rfl hij
            · exact Or.inl h
          · refine Or.inr ?_
            rw [List.getElem?_set_ne (fun hh => hij hh.symm)]
            exact h

/-- With six base positions and nonnegative progress, every card's
transform after `applyPositions` is exactly its computed offset. -/
theorem applyPositions_transforms (s : CState) (h6 : s.basePositions.length = 6)
    (ht : s.transforms.length = 6) (hp : 0 ≤ s.progress) (j : ℕ) (hj : j < 6) :
    (applyPositions s).transforms[j]? =
      some (some (cardOffsetAt s.basePositions s.progress j)) := by
  refine applyPositionsFrom_get_written (List.range 6) s j _ ?_ ?_ (by omega) ?_
  · intro i hi
    rw [applyCardOffset_eq s.basePositions s.progress i h6 (List.mem_range.mp hi) hp]
    simp
  · exact applyCardOffset_eq s.basePositions s.progress j h6 hj hp
  · exact Or.inl (List.mem_range.mpr hj)

/-- The transforms `applyPositions` produces depend only on the base
positions and the progress (six cards): starting transforms are fully
overwritten. -/
theorem applyPositions_transforms_eq (s s' : CState)
    (hb : s.basePositions = s'.basePositions) (hp : s.progress = s'.progress)
    (h6 : s.basePositions.length = 6) (ht : s.transforms.length = 6)
    (ht' : s'.transforms.length = 6) (hpos : 0 ≤ s.progress) :
    (applyPositions s).transforms = (applyPositions s').transforms := by
  have hl : (applyPositions s).transforms.length = 6 := by
    rw [applyPositions, applyPositionsFrom_transforms_length, ht]
  have hl' : (applyPositions s').transforms.length = 6 := by
    rw [applyPositions, applyPositionsFrom_transforms_length, ht']
  apply List.ext_getElem?
  intro j
  by_cases hj : j < 6
  · rw [applyPositions_transforms s h6 ht hpos j hj,
      applyPositions_transforms s' (hb ▸ h6) ht' (hp ▸ hpos) j hj, hb, hp]
  · rw [List.getElem?_eq_none (by omega), List.getElem?_eq_none (by omega)]

theorem inv_raf_shape (s : CState) (hpend : s.pending = []) (hin : s.inside = true) :
    SchedInv { s with
                 pending := s.pending ++ [s.nextHandle],
                 nextHandle := s.nextHandle + 1,
                 animationId := some s.nextHandle } := by
  constructor
  · intro h
    exact absurd h (by simp)
  · intro h hh
    obtain rfl : s.nextHandle = h := Option.some.inj hh
    exact ⟨by rw [hpend]; rfl, hin⟩

theorem animate_inv (ts : ℚ) (s : CState) (hpend : s.pending = []) (hin : s.inside = true) :
    SchedInv (animate ts s) := by
  simp only [animate, raf]
  apply inv_raf_shape
  · rw [applyPositions, (applyPositionsFrom_fields _ _).2.2.2.2.2.1]
    exact hpend
  · rw [applyPositions, (applyPositionsFrom_fields _ _).2.2.2.2.2.2.2]
    exact hin

/-- Every DOM-deliverable event preserves the scheduling invariant. -/
theorem inv_step (s : CState) (e : Event) (hInv : SchedInv s) (hok : okEvent s e = true) :
    SchedInv (step e s) := by
  obtain ⟨hnone, hsome⟩ := hInv
  cases e with
  | enter w r m =>
    have hin : s.inside = false := by simpa [okEvent] using hok
    have hid : s.animationId = none := by
      cases hA : s.animationId with
      | none => rfl
      | some h =>
        have h2 := (hsome h hA).2
        rw [hin] at h2
        cases h2
    have hpend : s.pending = [] := hnone hid
    simp only [step, handleMouseEnter]
    by_cases h1 : w < CONFIG.minWidth
    · rw [if_pos h1]
      exact ⟨fun _ => hpend, fun h hh => by rw [hid] at hh; cases hh⟩
    · rw [if_neg h1]
      cases r with
      | true =>
        simp only [if_true]
        exact ⟨fun _ => hpend, fun h hh => by rw [hid] at hh; cases hh⟩
      | false =>
        simp only [Bool.false_eq_true, if_false]
        apply inv_raf_shape <;> by_cases hc : s.positionsCaptured <;>
          simp [captureBasePositions, hc, hpend]
  | leave =>
    simp only [step, handleMouseLeave]
    cases hA : s.animationId with
    | none =>
      simp only [hA]
      exact ⟨fun _ => hnone hA, fun h hh => by simp at hh⟩
    | some hdl =>
      obtain ⟨hp1, _⟩ := hsome hdl hA
      simp only [hA]
      refine ⟨fun _ => ?_, fun h hh => by cases hh⟩
      simp [caf, hp1]
  | resized w m =>
    simp only [step, handleResizeWork]
    by_cases hc : s.positionsCaptured
    · simp only [hc, Bool.not_true, Bool.false_eq_true, if_false]
      cases hA : s.animationId with
      | none =>
        have hpend : s.pending = [] := hnone hA
        simp only [hA, Option.isSome_none]
        by_cases hw : w < CONFIG.minWidth
        · rw [if_pos hw]
          exact ⟨fun _ => hpend, fun h hh => by simp at hh⟩
        · rw [if_neg hw]
          simp only [Bool.false_eq_true, if_false]
          have hf := applyPositionsFrom_fields (List.range 6) (captureBasePositions m s)
          refine ⟨fun _ => ?_, fun h hh => ?_⟩
          · rw [applyPositions, hf.2.2.2.2.2.1]
            exact hpend
          · rw [applyPositions, hf.2.2.1] at hh
            have : s.animationId = some h := hh
            rw [hA] at this
            cases this
      | some hdl =>
        obtain ⟨hp1, hins⟩ := hsome hdl hA
        simp only [hA, Option.isSome_some]
        have hp0 : (caf hdl s).pending = [] := by
          simp [caf, hp1]
        by_cases hw : w < CONFIG.minWidth
        · rw [if_pos hw]
          exact ⟨fun _ => hp0, fun h hh => by cases hh⟩
        · rw [if_neg hw]
          simp only [if_true]
          apply inv_raf_shape
          · rw [applyPositions, (applyPositionsFrom_fields _ _).2.2.2.2.2.1]
            exact hp0
          · rw [applyPositions, (applyPositionsFrom_fields _ _).2.2.2.2.2.2.2]
            exact hins
    · simp only [hc]
      simp only [Bool.not_false, if_true]
      exact ⟨hnone, hsome⟩
  | frame ts =>
    cases hP : s.pending with
    | nil =>
      simp only [step, hP]
      exact ⟨hnone, hsome⟩
    | cons hdl rest =>
      cases hA : s.animationId with
      | none =>
        rw [hnone hA] at hP
        cases hP
      | some h1 =>
        obtain ⟨hp1, hins⟩ := hsome h1 hA
        rw [hP] at hp1
        obtain ⟨rfl, hrest⟩ : hdl = h1 ∧ rest = [] := by
          exact ⟨(List.cons.injEq _ _ _ _ ▸ hp1).1, (List.cons.injEq _ _ _ _ ▸ hp1).2⟩
        subst hrest
        simp only [step, hP]
        apply animate_inv
        · rfl
        · exact hins

theorem run_cons (e : Event) (es : List Event) (s : CState) :
    run (e :: es) s = run es (step e s) := rfl

theorem validRun_inv (es : List Event) (s : CState) (hInv : SchedInv s)
    (hv : validRun s es = true) : SchedInv (run es s) := by
  induction es generalizing s with
  | nil => exact hInv
  | cons e es ih =>
    rw [validRun, Bool.and_eq_true] at hv
    exact ih (step e s) (inv_step s e hInv hv.1) hv.2

theorem schedInv_pending_length (s : CState) (h : SchedInv s) :
    s.pending.length ≤ 1 := by
  cases hA : s.animationId with
  | none =>
    rw [h.1 hA]
    simp
  | some h1 =>
    rw [(h.2 h1 hA).1]
    simp

theorem schedInv_init : SchedInv initState :=
  ⟨fun _ => rfl, fun h hh => by simp [initState] at hh⟩

/-- From a state with no pending frame and no running loop, frozen
events change no component state. -/
theorem frozen_run (es : List Event) (s0 : CState)
    (hp : s0.pending = []) (ha : s0.animationId = none)
    (hf : ∀ e ∈ es, frozenEvent e) :
    (run es s0).transforms = s0.transforms ∧
    (run es s0).progress = s0.progress ∧
    (run es s0).basePositions = s0.basePositions ∧
    (run es s0).positionsCaptured = s0.positionsCaptured ∧
    (run es s0).pending = [] ∧
    (run es s0).animationId = none := by
  induction es generalizing s0 with
  | nil => exact ⟨rfl, rfl, rfl, rfl, hp, ha⟩
  | cons e es ih =>
    have hf1 := hf e (List.mem_cons_self e es)
    have hfr : ∀ e' ∈ es, frozenEvent e' :=
      fun e' he' => hf e' (List.mem_cons_of_mem _ he')
    have hstep : (step e s0).transforms = s0.transforms ∧
        (step e s0).progress = s0.progress ∧
        (step e s0).basePositions = s0.basePositions ∧
        (step e s0).positionsCaptured = s0.positionsCaptured ∧
        (step e s0).pending = [] ∧
        (step e s0).animationId = none := by
      cases e with
      | enter w r m =>
        rcases hf1 with hw | hr
        · simp [step, handleMouseEnter, hw, hp, ha]
        · by_cases hw : w < CONFIG.minWidth <;>
            simp [step, handleMouseEnter, hw, hr, hp, ha]
      | leave =>
        simp [step, handleMouseLeave, ha, hp]
      | resized w m => exact absurd hf1 (by simp [frozenEvent])
      | frame ts => simp [step, hp, ha]
    obtain ⟨h1, h2, h3, h4, h5, h6⟩ := hstep
    obtain ⟨g1, g2, g3, g4, g5, g6⟩ := ih (step e s0) h5 h6 hfr
    rw [run_cons]
    exact ⟨g1.trans h1, g2.trans h2, g3.trans h3, g4.trans h4, g5, g6⟩

/-- `handleMouseLeave` empties the frame queue and touches nothing
else (under the scheduling invariant). -/
theorem leave_state (s : CState) (hInv : SchedInv s) :
    (step .leave s).pending = [] ∧ (step .leave s).animationId = none ∧
    (step .leave s).transforms = s.transforms ∧
    (step .leave s).progress = s.progress ∧
    (step .leave s).basePositions = s.basePositions ∧
    (step .leave s).positionsCaptured = s.positionsCaptured := by
  simp only [step, handleMouseLeave]
  cases hA : s.animationId with
  | none =>
    simp only [hA]
    refine ⟨hInv.1 hA, ?_, ?_, ?_, ?_, ?_⟩ <;> trivial
  | some hdl =>
    simp only [hA]
    refine ⟨?_, ?_, ?_, ?_, ?_, ?_⟩
    · simp [caf, (hInv.2 hdl hA).1]
    all_goals trivial

/-- The debounced resize body on a wide viewport with captured
positions: re-captures the measured layout, keeps progress and the
captured flag, keeps the transform count, and re-applies positions
(each of the six cards gets its computed offset). -/
theorem resized_wide_fields (s : CState) (w : ℚ) (m : ℕ → Pos)
    (hc : s.positionsCaptured = true) (hw : ¬ w < CONFIG.minWidth) :
    (step (.resized w m) s).basePositions = (List.range 6).map m ∧
    (step (.resized w m) s).progress = s.progress ∧
    (step (.resized w m) s).positionsCaptured = true ∧
    (step (.resized w m) s).transforms.length = s.transforms.length ∧
    (∀ j : ℕ, s.transforms.length = 6 → 0 ≤ s.progress → j < 6 →
      (step (.resized w m) s).transforms[j]? =
        some (some (cardOffsetAt ((List.range 6).map m) s.progress j))) := by
  cases hA : s.animationId with
  | none =>
    simp only [step, handleResizeWork, hc, Bool.not_true, Bool.false_eq_true,
      if_false, hA, Option.isSome_none, if_neg hw]
    have hf := applyPositionsFrom_fields (List.range 6) (captureBasePositions m s)
    have hl := applyPositionsFrom_transforms_length (List.range 6)
      (captureBasePositions m s)
    refine ⟨?_, ?_, ?_, ?_, ?_⟩
    · rw [applyPositions, hf.1]
      rfl
    · rw [applyPositions, hf.2.1]
      rfl
    · rw [applyPositions, hf.2.2.2.2.1]
      rfl
    · rw [applyPositions, hl]
      rfl
    · intro j h6t hp0 hj
      exact applyPositions_transforms (captureBasePositions m s)
        (by simp [captureBasePositions]) h6t hp0 j hj
  | some hdl =>
    simp only [step, handleResizeWork, hc, Bool.not_true, Bool.false_eq_true,
      if_false, hA, Option.isSome_some, if_neg hw, if_true]
    refine ⟨?_, ?_, ?_, ?_, ?_⟩
    · exact ((applyPositionsFrom_fields (List.range 6) _).1).trans rfl
    · exact ((applyPositionsFrom_fields (List.range 6) _).2.1).trans rfl
    · exact ((applyPositionsFrom_fields (List.range 6) _).2.2.2.2.1).trans rfl
    · exact (applyPositionsFrom_transforms_length (List.range 6) _).trans rfl
    · intro j h6t hp0 hj
      exact applyPositions_transforms
        (captureBasePositions m { caf hdl s with animationId := none })
        (by rfl) h6t hp0 j hj

/-- C1: with ring order `[0,1,3,5,4,2]`, six cards and `progress = 2.25`,
card 0's effective index is `(0 + 2.25) mod 6 = 2.25`; the bracketing
ring slots are `ring[2] = 3` and `ring[3] = 5` with weight `0.25`; the
per-frame update sets card 0's target to `lerp(base[3], base[5], 0.25)`
in each axis and its rendered offset to that target minus `base[0]`. -/
theorem claim_C1 (b0 b1 b2 b3 b4 b5 : Pos) :
    jsMod ((0 : ℚ) + 9/4) 6 = 9/4 ∧
    CONFIG.ringOrder.getD 2 0 = 3 ∧
    CONFIG.ringOrder.getD 3 0 = 5 ∧
    Int.fract (jsMod ((0 : ℚ) + 9/4) 6) = 1/4 ∧
    applyCardOffset CONFIG.ringOrder [b0, b1, b2, b3, b4, b5] (9/4) 0 =
      .offset ⟨lerp b3.x b5.x (1/4) - b0.x, lerp b3.y b5.y (1/4) - b0.y⟩ := by
  have hmod : jsMod ((0 : ℚ) + 9/4) 6 = 9/4 := by
    rw [jsMod, jsTrunc_of_nonneg _ (by norm_num)]
    norm_num
  refine ⟨hmod, rfl, rfl, ?_, ?_⟩
  · rw [hmod, Int.fract]
    norm_num
  · rw [applyCardOffset_eq _ _ _ (by rfl) (by norm_num) (by norm_num)]
    have hrs : ringSlotIndex 0 = 0 := rfl
    rw [cardOffsetAt, hrs]
    push_cast
    rw [hmod, Int.fract]
    have h2 : ⌊(9:ℚ)/4⌋ = 2 := by norm_num
    rw [h2]
    norm_num [segOffset]
    simp [CONFIG]

/-- C2: for every captured set of six base positions and progress
`p ≥ 0`, each card's rendered offset is the lerp between the base
positions of the two cyclically adjacent ring slots its fractional ring
position lies between (segment `⌊effective⌋`, weight `fract effective`,
a value in `[0,1)`); and the offsets are continuous in `progress`: at
every integer boundary the new segment at weight 0 equals the previous
segment at weight 1, so cards never teleport. -/
theorem claim_C2 :
    (∀ (base : List Pos) (p : ℚ) (i r : ℕ), base.length = 6 → 0 ≤ p → i < 6 →
      CONFIG.ringOrder.findIdx? (· == i) = some r →
      applyCardOffset CONFIG.ringOrder base p i =
        .offset (segOffset base i ⌊jsMod ((r : ℚ) + p) 6⌋.toNat
          (Int.fract (jsMod ((r : ℚ) + p) 6))) ∧
      0 ≤ Int.fract (jsMod ((r : ℚ) + p) 6) ∧
      Int.fract (jsMod ((r : ℚ) + p) 6) < 1) ∧
    (∀ (base : List Pos) (i m : ℕ),
      segOffset base i (m + 1) 0 = segOffset base i m 1) := by
  constructor
  · intro base p i r h6 hp hi hr
    exact ⟨applyCardOffset_eq_segOffset base p i r h6 hi hp hr,
      Int.fract_nonneg _, Int.fract_lt_one _⟩
  · intro base i m
    simp only [segOffset, lerp]
    refine congrArg₂ Pos.mk ?_ ?_ <;> ring

/-- Witness for C2 at base `sampleBase`, progress 0, card 0. -/
theorem claim_C2_witness :
    (applyCardOffset CONFIG.ringOrder sampleBase 0 0 =
      .offset (segOffset sampleBase 0 ⌊jsMod (((0 : ℕ) : ℚ) + 0) 6⌋.toNat
        (Int.fract (jsMod (((0 : ℕ) : ℚ) + 0) 6))) ∧
      0 ≤ Int.fract (jsMod (((0 : ℕ) : ℚ) + 0) 6) ∧
      Int.fract (jsMod (((0 : ℕ) : ℚ) + 0) 6) < 1) ∧
    segOffset sampleBase 0 (0 + 1) 0 = segOffset sampleBase 0 0 1 :=
  ⟨claim_C2.1 sampleBase 0 0 0 rfl (le_refl 0) (by norm_num) (by decide),
   claim_C2.2 sampleBase 0 0⟩

/-- C3: for every card (ring position `ringPos`) and progress `p ≥ 0`,
the interpolation weight `t = effective - ⌊effective⌋` with
`effective = (ringPos + p) % 6` lies in `[0, 1)`, and the bracketing
indices `posA = ⌊effective⌋ % 6` and `posB = (posA + 1) % 6` are
cyclically adjacent: `0 ≤ posA < 6` and `posB` is the cyclic successor
of `posA`. -/
theorem claim_C3 (ringPos : ℕ) (p : ℚ) (hp : 0 ≤ p) :
    0 ≤ jsMod ((ringPos : ℚ) + p) 6 - (⌊jsMod ((ringPos : ℚ) + p) 6⌋ : ℚ) ∧
    jsMod ((ringPos : ℚ) + p) 6 - (⌊jsMod ((ringPos : ℚ) + p) 6⌋ : ℚ) < 1 ∧
    0 ≤ jsRemInt ⌊jsMod ((ringPos : ℚ) + p) 6⌋ 6 ∧
    jsRemInt ⌊jsMod ((ringPos : ℚ) + p) 6⌋ 6 < 6 ∧
    jsRemInt (jsRemInt ⌊jsMod ((ringPos : ℚ) + p) 6⌋ 6 + 1) 6 =
      (jsRemInt ⌊jsMod ((ringPos : ℚ) + p) 6⌋ 6 + 1) % 6 := by
  have ha : (0:ℚ) ≤ (ringPos : ℚ) + p := by positivity
  have he0 : 0 ≤ jsMod ((ringPos : ℚ) + p) 6 := jsMod_nonneg _ _ ha (by norm_num)
  have hfl0 : 0 ≤ ⌊jsMod ((ringPos : ℚ) + p) 6⌋ := Int.floor_nonneg.mpr he0
  have hfl6 : ⌊jsMod ((ringPos : ℚ) + p) 6⌋ < 6 := floor_jsMod_lt_six _ ha
  have hA : jsRemInt ⌊jsMod ((ringPos : ℚ) + p) 6⌋ 6 = ⌊jsMod ((ringPos : ℚ) + p) 6⌋ := by
    rw [jsRemInt_of_nonneg _ _ hfl0]
    exact Int.emod_eq_of_lt hfl0 hfl6
  refine ⟨?_, ?_, ?_, ?_, ?_⟩
  · rw [Int.self_sub_floor]
    exact Int.fract_nonneg _
  · rw [Int.self_sub_floor]
    exact Int.fract_lt_one _
  · rw [hA]
    exact hfl0
  · rw [hA]
    exact hfl6
  · exact jsRemInt_of_nonneg _ _ (by omega)

/-- Witness for C3 at ring position 0 and progress 0. -/
theorem claim_C3_witness :
    0 ≤ jsMod (((0 : ℕ) : ℚ) + 0) 6 - (⌊jsMod (((0 : ℕ) : ℚ) + 0) 6⌋ : ℚ) ∧
    jsMod (((0 : ℕ) : ℚ) + 0) 6 - (⌊jsMod (((0 : ℕ) : ℚ) + 0) 6⌋ : ℚ) < 1 ∧
    0 ≤ jsRemInt ⌊jsMod (((0 : ℕ) : ℚ) + 0) 6⌋ 6 ∧
    jsRemInt ⌊jsMod (((0 : ℕ) : ℚ) + 0) 6⌋ 6 < 6 ∧
    jsRemInt (jsRemInt ⌊jsMod (((0 : ℕ) : ℚ) + 0) 6⌋ 6 + 1) 6 =
      (jsRemInt ⌊jsMod (((0 : ℕ) : ℚ) + 0) 6⌋ 6 + 1) % 6 :=
  claim_C3 0 0 (le_refl 0)

/-- C4: after hover-leave no frame is pending, and no rendered offset
and no component state (progress, base positions, captured flag)
changes for any subsequent sequence of frame timestamps, hover-leaves
and non-qualifying hover-enters, until a qualifying hover-enter (the
transforms freeze in place). -/
theorem claim_C4 (s : CState) (hInv : SchedInv s) (es : List Event)
    (hf : ∀ e ∈ es, frozenEvent e) :
    (step .leave s).pending = [] ∧
    (step .leave s).animationId = none ∧
    (run es (step .leave s)).transforms = (step .leave s).transforms ∧
    (run es (step .leave s)).progress = (step .leave s).progress ∧
    (run es (step .leave s)).basePositions = (step .leave s).basePositions ∧
    (run es (step .leave s)).positionsCaptured = (step .leave s).positionsCaptured ∧
    (run es (step .leave s)).pending = [] := by
  obtain ⟨hp, ha, _, _, _, _⟩ := leave_state s hInv
  obtain ⟨g1, g2, g3, g4, g5, _⟩ := frozen_run es (step .leave s) hp ha hf
  exact ⟨hp, ha, g1, g2, g3, g4, g5⟩

/-- Witness for C4: the captured idle state, followed by a frame
timestamp, a spurious leave, and a narrow-viewport hover-enter. -/
theorem claim_C4_witness :
    (step .leave sampleState).pending = [] ∧
    (step .leave sampleState).animationId = none ∧
    (run [Event.frame 100, Event.leave, Event.enter 300 false sampleMeasured]
        (step .leave sampleState)).transforms = (step .leave sampleState).transforms ∧
    (run [Event.frame 100, Event.leave, Event.enter 300 false sampleMeasured]
        (step .leave sampleState)).progress = (step .leave sampleState).progress ∧
    (run [Event.frame 100, Event.leave, Event.enter 300 false sampleMeasured]
        (step .leave sampleState)).basePositions = (step .leave sampleState).basePositions ∧
    (run [Event.frame 100, Event.leave, Event.enter 300 false sampleMeasured]
        (step .leave sampleState)).positionsCaptured =
      (step .leave sampleState).positionsCaptured ∧
    (run [Event.frame 100, Event.leave, Event.enter 300 false sampleMeasured]
        (step .leave sampleState)).pending = [] :=
  claim_C4 sampleState
    ⟨fun _ => rfl, fun h hh => by simp [sampleState] at hh⟩
    [Event.frame 100, Event.leave, Event.enter 300 false sampleMeasured]
    (by intro e he
        fin_cases he <;> simp [frozenEvent] <;> norm_num [CONFIG])

/-- C5: a debounced resize below the breakpoint while the loop runs
stops the loop (no frame pending), clears every card's transform, marks
positions uncaptured and zeroes progress; a subsequent hover-enter
while still narrow changes no component state (width guard). -/
theorem claim_C5 (s : CState) (w : ℚ) (m : ℕ → Pos) (w' : ℚ) (r' : Bool)
    (m' : ℕ → Pos) (hInv : SchedInv s) (hc : s.positionsCaptured = true)
    (ha : s.animationId.isSome = true) (hw : w < CONFIG.minWidth)
    (hw' : w' < CONFIG.minWidth) :
    (step (.resized w m) s).pending = [] ∧
    (step (.resized w m) s).animationId = none ∧
    (∀ t ∈ (step (.resized w m) s).transforms, t = none) ∧
    (step (.resized w m) s).positionsCaptured = false ∧
    (step (.resized w m) s).progress = 0 ∧
    (step (.enter w' r' m') (step (.resized w m) s)).transforms =
      (step (.resized w m) s).transforms ∧
    (step (.enter w' r' m') (step (.resized w m) s)).progress = 0 ∧
    (step (.enter w' r' m') (step (.resized w m) s)).positionsCaptured = false ∧
    (step (.enter w' r' m') (step (.resized w m) s)).pending = [] ∧
    (step (.enter w' r' m') (step (.resized w m) s)).basePositions =
      (step (.resized w m) s).basePositions := by
  cases hA : s.animationId with
  | none =>
    rw [hA] at ha
    simp at ha
  | some hdl =>
    have hp1 := (hInv.2 hdl hA).1
    have hstep : step (.resized w m) s =
        { s with transforms := s.transforms.map (fun _ => none),
                 positionsCaptured := false,
                 progress := 0,
                 animationId := none,
                 pending := s.pending.filter (· ≠ hdl) } := by
      simp [step, handleResizeWork, hc, hA, hw, caf]
    have hpf : s.pending.filter (· ≠ hdl) = [] := by
      simp [hp1]
    rw [hstep]
    refine ⟨hpf, rfl, ?_, rfl, rfl, ?_, ?_, ?_, ?_, ?_⟩
    · intro t htm
      simp only [List.mem_map] at htm
      obtain ⟨_, _, h⟩ := htm
      exact h.symm
    all_goals simp [step, handleMouseEnter, hw', hpf, hp1]

/-- Witness for C5 at the concrete animating state and width 700. -/
theorem claim_C5_witness :
    (step (.resized 700 sampleMeasured) sampleAnimState).pending = [] ∧
    (step (.resized 700 sampleMeasured) sampleAnimState).animationId = none ∧
    (∀ t ∈ (step (.resized 700 sampleMeasured) sampleAnimState).transforms, t = none) ∧
    (step (.resized 700 sampleMeasured) sampleAnimState).positionsCaptured = false ∧
    (step (.resized 700 sampleMeasured) sampleAnimState).progress = 0 ∧
    (step (.enter 700 false sampleMeasured)
        (step (.resized 700 sampleMeasured) sampleAnimState)).transforms =
      (step (.resized 700 sampleMeasured) sampleAnimState).transforms ∧
    (step (.enter 700 false sampleMeasured)
        (step (.resized 700 sampleMeasured) sampleAnimState)).progress = 0 ∧
    (step (.enter 700 false sampleMeasured)
        (step (.resized 700 sampleMeasured) sampleAnimState)).positionsCaptured = false ∧
    (step (.enter 700 false sampleMeasured)
        (step (.resized 700 sampleMeasured) sampleAnimState)).pending = [] ∧
    (step (.enter 700 false sampleMeasured)
        (step (.resized 700 sampleMeasured) sampleAnimState)).basePositions =
      (step (.resized 700 sampleMeasured) sampleAnimState).basePositions :=
  claim_C5 sampleAnimState 700 sampleMeasured 700 false sampleMeasured
    ⟨fun h => absurd h (by simp [sampleAnimState, sampleState]),
     fun h hh => by
      obtain rfl : (0:ℕ) = h := Option.some.inj hh
      exact ⟨rfl, rfl⟩⟩
    rfl rfl (by decide) (by decide)

/-- C6: `captureBasePositions` restores every card's transform to its
value before the call (clear-measure-restore) and modifies nothing but
`basePositions` (set to the measured layout) and `positionsCaptured`. -/
theorem claim_C6 (measured : ℕ → Pos) (s : CState) :
    (captureBasePositions measured s).transforms = s.transforms ∧
    (captureBasePositions measured s).progress = s.progress ∧
    (captureBasePositions measured s).animationId = s.animationId ∧
    (captureBasePositions measured s).lastTimestamp = s.lastTimestamp ∧
    (captureBasePositions measured s).pending = s.pending ∧
    (captureBasePositions measured s).nextHandle = s.nextHandle ∧
    (captureBasePositions measured s).inside = s.inside ∧
    (captureBasePositions measured s).basePositions = (List.range 6).map measured ∧
    (captureBasePositions measured s).positionsCaptured = true :=
  ⟨rfl, rfl, rfl, rfl, rfl, rfl, rfl, rfl, rfl⟩

/-- C7: running the debounced resize body twice in immediate
succession, with the same viewport width and the same measured layout,
yields the same rendered offsets, progress, captured-state flag and
base positions as running it once — in the narrow branch because the
second run is a no-op (positions are uncaptured), in the wide branch
because re-capture and re-apply are idempotent for an unchanged
layout. -/
theorem claim_C7 (s : CState) (w : ℚ) (m : ℕ → Pos)
    (ht : s.transforms.length = 6) (hp : 0 ≤ s.progress) :
    (step (.resized w m) (step (.resized w m) s)).transforms =
      (step (.resized w m) s).transforms ∧
    (step (.resized w m) (step (.resized w m) s)).progress =
      (step (.resized w m) s).progress ∧
    (step (.resized w m) (step (.resized w m) s)).positionsCaptured =
      (step (.resized w m) s).positionsCaptured ∧
    (step (.resized w m) (step (.resized w m) s)).basePositions =
      (step (.resized w m) s).basePositions := by
  by_cases hc : s.positionsCaptured
  · by_cases hw : w < CONFIG.minWidth
    · have h1 : (step (.resized w m) s).positionsCaptured = false := by
        cases hA : s.animationId <;> simp [step, handleResizeWork, hc, hA, hw, caf]
      have h2 : step (.resized w m) (step (.resized w m) s) = step (.resized w m) s := by
        set s1 := step (.resized w m) s with hs1
        simp [step, handleResizeWork, h1]
      rw [h2]
      exact ⟨rfl, rfl, rfl, rfl⟩
    · obtain ⟨hb1, hp1, hc1, hl1, hj1⟩ := resized_wide_fields s w m hc hw
      obtain ⟨hb2, hp2, hc2, hl2, hj2⟩ :=
        resized_wide_fields (step (.resized w m) s) w m hc1 hw
      refine ⟨?_, by rw [hp2, hp1], by rw [hc2, hc1], by rw [hb2, hb1]⟩
      apply List.ext_getElem?
      intro j
      by_cases hj : j < 6
      · rw [hj2 j (by rw [hl1, ht]) (by rw [hp1]; exact hp) hj, hj1 j ht hp hj, hp1]
      · rw [List.getElem?_eq_none (by rw [hl2, hl1, ht]; omega),
          List.getElem?_eq_none (by rw [hl1, ht]; omega)]
  · have h1 : step (.resized w m) s = s := by
      simp [step, handleResizeWork, hc]
    rw [h1, h1]
    exact ⟨rfl, rfl, rfl, rfl⟩

/-- Witness for C7 at the captured sample state, width 800. -/
theorem claim_C7_witness :
    (step (.resized 800 sampleMeasured) (step (.resized 800 sampleMeasured) sampleState)).transforms =
      (step (.resized 800 sampleMeasured) sampleState).transforms ∧
    (step (.resized 800 sampleMeasured) (step (.resized 800 sampleMeasured) sampleState)).progress =
      (step (.resized 800 sampleMeasured) sampleState).progress ∧
    (step (.resized 800 sampleMeasured) (step (.resized 800 sampleMeasured) sampleState)).positionsCaptured =
      (step (.resized 800 sampleMeasured) sampleState).positionsCaptured ∧
    (step (.resized 800 sampleMeasured) (step (.resized 800 sampleMeasured) sampleState)).basePositions =
      (step (.resized 800 sampleMeasured) sampleState).basePositions :=
  claim_C7 sampleState 800 sampleMeasured rfl (le_refl 0)

/-- C8: under every inapplicability condition — container absent, card
count different from 6, or reduced motion requested — `init` registers
no event listener and leaves the module state untouched; consequently
no subsequent event (in particular no hover-enter) ever changes state
or starts a frame loop. -/
theorem claim_C8 (env : InitEnv) (s : CState) (es : List Event)
    (h : env.gridPresent = false ∨ env.cardCount ≠ 6 ∨ env.reducedMotion = true) :
    (init env s).1 = false ∧ (init env s).2 = s ∧
    systemRun (init env s).1 es s = s := by
  have hf : (init env s).1 = false := by
    rcases h with h | h | h
    · simp [init, h]
    · by_cases hg : env.gridPresent <;> simp [init, h, hg]
    · by_cases hg : env.gridPresent <;> by_cases hcnt : env.cardCount = 6 <;>
        simp [init, h, hg, hcnt]
  have hs2 : (init env s).2 = s := by
    simp only [init]
    split
    · rfl
    · split
      · rfl
      · split
        · rfl
        · rfl
  have hrun : systemRun false es s = s := by
    induction es with
    | nil => rfl
    | cons e es ih => exact ih
  exact ⟨hf, hs2, by rw [hf]; exact hrun⟩

/-- Witness for C8: the container is absent and a leave event arrives. -/
theorem claim_C8_witness :
    (init ⟨false, 6, false⟩ initState).1 = false ∧
    (init ⟨false, 6, false⟩ initState).2 = initState ∧
    systemRun (init ⟨false, 6, false⟩ initState).1 [Event.leave] initState = initState :=
  claim_C8 ⟨false, 6, false⟩ initState [Event.leave] (Or.inl rfl)

/-- Counterexample to C9 as stated: `handleMouseEnter` does not cancel
before scheduling, so two consecutive hover-enter events (a sequence of
the named event kinds) leave two animation-frame callbacks pending. -/
theorem claim_C9_counterexample :
    (run [Event.enter 800 false sampleMeasured, Event.enter 800 false sampleMeasured]
      initState).pending.length = 2 := by
  decide

/-- C9 (amended): in every state reachable from the initial state by a
DOM-deliverable sequence of hover-enter, hover-leave, debounced-resize
and frame events (hover-enter fires only with the pointer outside, so
enter and leave alternate), at most one animation-frame callback is
pending at a time. -/
theorem claim_C9 (es : List Event) (hv : validRun initState es = true) :
    (run es initState).pending.length ≤ 1 :=
  schedInv_pending_length _ (validRun_inv es initState schedInv_init hv)

/-- Witness for C9 on a qualifying enter-leave-enter trace. -/
theorem claim_C9_witness :
    (run [Event.enter 800 false sampleMeasured, Event.leave,
          Event.enter 800 false sampleMeasured] initState).pending.length ≤ 1 :=
  claim_C9 [Event.enter 800 false sampleMeasured, Event.leave,
    Event.enter 800 false sampleMeasured] (by decide)

/-- C10: whenever the update runs after a successful capture (six base
positions, six cards, nonnegative progress): the ring order is a
permutation of 0..5 so `indexOf` never returns `-1` (the early-return
guard is unreachable), no array access faults, and every one of the six
cards is assigned a transform by `applyPositions`. -/
theorem claim_C10 (s : CState) (h6 : s.basePositions.length = 6)
    (ht : s.transforms.length = 6) (hp : 0 ≤ s.progress) :
    (∀ i < 6, (CONFIG.ringOrder.findIdx? (· == i)).isSome) ∧
    (∀ i < 6, ∃ p, applyCardOffset CONFIG.ringOrder s.basePositions s.progress i =
      .offset p) ∧
    (∀ i < 6, (applyPositions s).transforms[i]? =
      some (some (cardOffsetAt s.basePositions s.progress i))) := by
  refine ⟨by decide, ?_, ?_⟩
  · intro i hi
    exact ⟨_, applyCardOffset_eq s.basePositions s.progress i h6 hi hp⟩
  · intro i hi
    exact applyPositions_transforms s h6 ht hp i hi

/-- Witness for C10 at the concrete captured state `sampleState`. -/
theorem claim_C10_witness :
    (∀ i < 6, (CONFIG.ringOrder.findIdx? (· == i)).isSome) ∧
    (∀ i < 6, ∃ p, applyCardOffset CONFIG.ringOrder sampleState.basePositions
      sampleState.progress i = .offset p) ∧
    (∀ i < 6, (applyPositions sampleState).transforms[i]? =
      some (some (cardOffsetAt sampleState.basePositions sampleState.progress i))) :=
  claim_C10 sampleState rfl rfl (le_refl 0)
